import Mathlib

/-!
Verification of the category-vector feature pipeline
(`src/features/category_vector.py`).

The Python module is shallowly embedded below.  Pandas dataframes become
lists of `Row` records (one record per row, the five label-encoded
categorical columns as natural-number fields); numpy matrices become
`List (List Rat)`; the sklearn vectorizer/factorizer pipelines are external
collaborators and are passed in as function parameters (the module only
configures them, it does not implement them); reading a feather file is an
external collaborator as well, so the dataframe that `get_feature` would
load from a path is passed directly.  Python integers are unbounded, so the
bit-packed composite key is modelled on `Nat` without any truncation.
-/

namespace CategoryVector

/-- The fixed categorical column set of the module. -/
inductive Col : Type
  | ip
  | app
  | os
  | device
  | channel
  deriving DecidableEq, Inhabited

/-- The pandas column label of a column. -/
def Col.name : Col → String
  | Col.ip => "ip"
  | Col.app => "app"
  | Col.os => "os"
  | Col.device => "device"
  | Col.channel => "channel"

/-- One row of the record-level dataset: the five categorical columns,
already label-encoded upstream as non-negative integers. -/
structure Row where
  ip : ℕ
  app : ℕ
  os : ℕ
  device : ℕ
  channel : ℕ
  deriving DecidableEq, Inhabited

/-- Column access `df[c]` for a single row. -/
def Row.get (r : Row) : Col → ℕ
  | Col.ip => r.ip
  | Col.app => r.app
  | Col.os => r.os
  | Col.device => r.device
  | Col.channel => r.channel

/-- `values[i].append(x)` on a list of buckets: append `x` to the `i`-th
bucket (a no-op when `i` is out of range, which never happens on the
executions the theorems describe). -/
def appendAt (l : List (List ℕ)) (i : ℕ) (x : ℕ) : List (List ℕ) :=
  l.set i (l.getD i [] ++ [x])

/-- `create_word_list(df, col1, col2)` (lines 16-21).  The two row-aligned
columns are given as a list of `(col1 value, col2 value)` pairs.  Allocates
`max(col1) + 1` empty buckets, appends each row's `col2` value to the bucket
of its `col1` value, and space-joins each bucket's stringified entries. -/
def create_word_list (rows : List (ℕ × ℕ)) : List String :=
  let col1_size := (rows.map Prod.fst).foldl max 0 + 1
  let col2_list := rows.foldl (fun acc p => appendAt acc p.1 p.2)
    (List.replicate col1_size [])
  col2_list.map (fun l => String.intercalate " " (l.map toString))

/-- `get_column_pairs` (lines 52-54): all ordered pairs with distinct
members from the fixed column set, in `itertools.product` (row-major)
order. -/
def get_column_pairs : List (Col × Col) :=
  let columns := [Col.ip, Col.app, Col.os, Col.device, Col.channel]
  (columns.flatMap (fun col1 => columns.map (fun col2 => (col1, col2)))).filter
    (fun p => decide (p.1 ≠ p.2))

/-- `get_feature(self, path, cs1, cs2, vs)` (lines 73-84).  The dataframe
read from `path` is passed directly as `df_data`; the three parallel lists
`cs1, cs2, vs` (always collected in lockstep by `transform`) are passed as
one list of triples.  Returns the generated column names together with the
feature matrix: row `j` holds, at column offset `i * width`, the latent row
of triple `i` indexed by row `j`'s `col1` value. -/
def get_feature (name : String) (width : ℕ) (df_data : List Row)
    (triples : List (Col × Col × List (List ℚ))) :
    List String × List (List ℚ) :=
  (triples.flatMap (fun t => (List.range width).map (fun j =>
      name ++ "-" ++ t.1.name ++ "-" ++ t.2.1.name ++ "-" ++ toString j)),
   df_data.map (fun r => triples.flatMap (fun t =>
      t.2.2.getD (r.get t.1) (List.replicate width 0))))

/-- `transform` (lines 36-50).  `compute_latent_vectors` (the per-pair
vectorizer-plus-factorizer fit, lines 30-34) is an external numerical
collaborator, passed as `computeLatent`; it is applied to the `dataframe`
argument of `transform` for every column pair.  The module-level free names
`train_path` / `test_path` are the external train/test dataframes, passed
here directly as `df_train` / `df_test`.  Both returned feature tables are
assembled by `get_feature` from the one list of fitted triples. -/
def transform (name : String) (width : ℕ)
    (computeLatent : List Row → Col × Col → List (List ℚ))
    (dataframe df_train df_test : List Row) :
    (List String × List (List ℚ)) × (List String × List (List ℚ)) :=
  let triples := get_column_pairs.map (fun p => (p.1, p.2, computeLatent dataframe p))
  (get_feature name width df_train triples, get_feature name width df_test triples)

/-- The bit-packed composite key of `UserItemLDA` (lines 181 and 221):
`(ip << 44) | (device << 20) | (os << 10) | channel` on unbounded Python
integers. -/
def rowMask (r : Row) : ℕ :=
  (r.ip <<< 44) ||| (r.device <<< 20) ||| (r.os <<< 10) ||| r.channel

/-- `while len(values) <= mask_id: values.append([])` — pad the bucket list
with empty buckets up to length `n`. -/
def padTo (l : List (List ℕ)) (n : ℕ) : List (List ℕ) :=
  l ++ List.replicate (n - l.length) []

/-- One iteration of the accumulation loop of
`UserItemLDA.create_features_from_dataframe` (lines 177-189): look the
row's packed key up in the insertion-ordered `mask_to_id` association
list, assigning the next dense id on a miss, then append the row's `app`
value to that id's bucket. -/
def uilStep (st : List (ℕ × ℕ) × List (List ℕ)) (r : Row) :
    List (ℕ × ℕ) × List (List ℕ) :=
  match List.lookup (rowMask r) st.1 with
  | some id => (st.1, appendAt (padTo st.2 (id + 1)) id r.app)
  | none =>
      (st.1 ++ [(rowMask r, st.1.length)],
       appendAt (padTo st.2 (st.1.length + 1)) st.1.length r.app)

/-- The whole accumulation loop: fold `uilStep` over the concatenated
dataset, starting from an empty `mask_to_id` map and empty bucket list. -/
def uilAccumulate (df_data : List Row) : List (ℕ × ℕ) × List (List ℕ) :=
  df_data.foldl uilStep ([], [])

/-- One iteration of the frequency filter (lines 190-199): keep a key when
its bucket has at least `threshold` entries, appending the bucket to the
new bucket list and recording the next contiguous new id for the key. -/
def uilFilterStep (values : List (List ℕ)) (threshold : ℕ)
    (acc : List (List ℕ) × List (ℕ × ℕ)) (p : ℕ × ℕ) :
    List (List ℕ) × List (ℕ × ℕ) :=
  if threshold ≤ (values.getD p.2 []).length then
    (acc.1 ++ [values.getD p.2 []], acc.2 ++ [(p.1, acc.1.length)])
  else acc

/-- The whole frequency filter: iterate over `mask_to_id` in insertion
order, producing the surviving buckets (`new_values`) and the renumbered
key map (`new_mask_to_id`). -/
def uilFilter (m : List (ℕ × ℕ)) (values : List (List ℕ)) (threshold : ℕ) :
    List (List ℕ) × List (ℕ × ℕ) :=
  m.foldl (uilFilterStep values threshold) ([], [])

/-- The vectorizer minimum document frequency chosen at lines 206-210:
`1` for fewer than `1000 * 1000` combined rows, otherwise `2`. -/
def uilMinDf (nRows : ℕ) : ℕ :=
  if nRows < 1000 * 1000 then 1 else 2

/-- One row of the broadcast loop (lines 218-224): rows whose packed key
survived the filter receive the latent row of their renumbered id, rows
whose key was filtered out keep the all-zero initialisation. -/
def uilFeatureRow (maskToId : List (ℕ × ℕ)) (components : List (List ℚ))
    (n : ℕ) (r : Row) : List ℚ :=
  match List.lookup (rowMask r) maskToId with
  | some id => components.getD id (List.replicate n 0)
  | none => List.replicate n 0

/-- `UserItemLDA.create_features_from_dataframe` (lines 170-228).  The
vectorizer-plus-LDA fit is the external collaborator `pipeline`, receiving
the selected minimum document frequency and the document list and returning
the latent matrix (one row per surviving key, 30 columns). -/
def UserItemLDA.create_features_from_dataframe
    (pipeline : ℕ → List String → List (List ℚ))
    (df_train df_test : List Row) : List (List ℚ) × List (List ℚ) :=
  let df_data := df_train ++ df_test
  let acc := uilAccumulate df_data
  let flt := uilFilter acc.1 acc.2 3
  let docs := flt.1.map (fun ls => String.intercalate " " (ls.map toString))
  let components := pipeline (uilMinDf df_data.length) docs
  let features := df_data.map (uilFeatureRow flt.2 components 30)
  (features.take df_train.length, features.drop df_train.length)

/-- `SinglePCACount.create_features_from_dataframe` (lines 127-140).  The
one-hot-plus-SVD pipeline is the external collaborator `pipeline`; it is
fitted on the concatenation of the train and test dataframes and the
resulting matrix is split back at the train length. -/
def SinglePCACount.create_features_from_dataframe
    (pipeline : List Row → List (List ℚ))
    (df_train df_test : List Row) : List (List ℚ) × List (List ℚ) :=
  let features := pipeline (df_train ++ df_test)
  (features.take df_train.length, features.drop df_train.length)

/-- Modelled from the spec (section 5): the semantics of
`multiprocessing.Pool.map`, which is library code outside this repository.
A pool run executes every submitted job, in an arbitrary completion order
given by the index list `order`, tagging each result with its submission
index. -/
def poolRun {α β : Type} [Inhabited α] (f : α → β) (jobs : List α)
    (order : List ℕ) : List (ℕ × β) :=
  order.map (fun i => (i, f (jobs.getD i default)))

/-- Modelled from the spec (section 5): `Pool.map` collects the tagged
results back in submission order, independent of the completion order. -/
def poolMap {α β : Type} [Inhabited α] (f : α → β) (jobs : List α)
    (order : List ℕ) : List β :=
  (List.range jobs.length).filterMap (fun i => List.lookup i (poolRun f jobs order))

/-! ### Generic list helpers -/

theorem getD_congr {α : Type} (l : List α) (i : ℕ) (h : i < l.length) (d d2 : α) :
    l.getD i d = l.getD i d2 := by
  rw [List.getD_eq_getElem l d h, List.getD_eq_getElem l d2 h]

theorem getD_map_of_lt {α β : Type} [Inhabited α] (f : α → β) (l : List α) (i : ℕ)
    (h : i < l.length) (d : β) :
    (l.map f).getD i d = f (l.getD i default) := by
  rw [List.getD_eq_getElem (l.map f) d (by simpa using h), List.getElem_map,
    List.getD_eq_getElem l default h]

theorem flatMap_length_const {α β : Type} (f : α → List β) (w : ℕ) (l : List α)
    (h : ∀ a ∈ l, (f a).length = w) : (l.flatMap f).length = l.length * w := by
  induction l with
  | nil => simp
  | cons a t ih =>
    simp only [List.flatMap_cons, List.length_append, List.length_cons]
    rw [h a (List.mem_cons_self a t), ih (fun b hb => h b (List.mem_cons_of_mem a hb))]
    ring

theorem flatMap_drop_take {α β : Type} [Inhabited α] (f : α → List β) (w : ℕ)
    (l : List α) (h : ∀ a ∈ l, (f a).length = w) (i : ℕ) (hi : i < l.length) :
    ((l.flatMap f).drop (i * w)).take w = f (l.getD i default) := by
  induction l generalizing i with
  | nil => simp at hi
  | cons a t ih =>
    cases i with
    | zero =>
      simp only [List.flatMap_cons, Nat.zero_mul, List.drop_zero, List.getD_cons_zero]
      rw [List.take_left' (h a (List.mem_cons_self a t))]
    | succ n =>
      have hstep : (n + 1) * w = (f a).length + n * w := by
        rw [h a (List.mem_cons_self a t)]; ring
      simp only [List.flatMap_cons, List.getD_cons_succ]
      rw [hstep, ← List.drop_drop, List.drop_left]
      exact ih (fun b hb => h b (List.mem_cons_of_mem a hb)) n (by simpa using hi)

theorem map_getD_range {α β : Type} [Inhabited α] (f : α → β) (l : List α) :
    (List.range l.length).map (fun i => f (l.getD i default)) = l.map f := by
  induction l with
  | nil => simp
  | cons a t ih =>
    rw [List.length_cons, List.range_succ_eq_map, List.map_cons, List.map_map]
    have hcomp :
        List.map ((fun i => f ((a :: t).getD i default)) ∘ Nat.succ) (List.range t.length)
          = List.map (fun i => f (t.getD i default)) (List.range t.length) :=
      List.map_congr_left (fun i _ => by simp)
    rw [hcomp, ih]
    simp

theorem getD_appendAt_self (l : List (List ℕ)) (i : ℕ) (x : ℕ) (h : i < l.length) :
    (appendAt l i x).getD i [] = l.getD i [] ++ [x] := by
  unfold appendAt
  rw [List.getD_eq_getElem _ _ (by simpa using h), List.getElem_set_self]

theorem getD_set_ne {α : Type} (l : List α) (i j : ℕ) (a d : α) (h : j ≠ i) :
    (l.set i a).getD j d = l.getD j d := by
  induction l generalizing i j with
  | nil => simp
  | cons b t ih =>
    cases i with
    | zero =>
      cases j with
      | zero => exact absurd rfl h
      | succ m => simp [List.getD_cons_succ]
    | succ n =>
      cases j with
      | zero => simp [List.getD_cons_zero]
      | succ m => simpa [List.getD_cons_succ] using ih n m (by omega)

theorem getD_appendAt_ne (l : List (List ℕ)) (i j : ℕ) (x : ℕ) (h : j ≠ i) :
    (appendAt l i x).getD j [] = l.getD j [] :=
  getD_set_ne l i j _ [] h

theorem lookup_mem {β : Type} {l : List (ℕ × β)} {k : ℕ} {v : β}
    (h : List.lookup k l = some v) : (k, v) ∈ l := by
  induction l with
  | nil => simp [List.lookup] at h
  | cons p t ih =>
    rcases p with ⟨a, b⟩
    rw [List.lookup_cons] at h
    cases hk : (k == a) with
    | true =>
      rw [hk] at h
      simp only [Option.some.injEq] at h
      subst h
      have hka : k = a := by simpa using hk
      subst hka
      exact List.mem_cons_self _ _
    | false =>
      rw [hk] at h
      exact List.mem_cons_of_mem _ (ih h)

theorem lookup_of_mem_keys {β : Type} {l : List (ℕ × β)} {k : ℕ}
    (h : k ∈ l.map Prod.fst) : ∃ v, List.lookup k l = some v := by
  have hsome : (List.lookup k l).isSome := by
    rw [List.lookup_isSome_iff]
    rcases List.mem_map.mp h with ⟨p, hp, hpk⟩
    exact ⟨p, hp, by simp [hpk]⟩
  exact Option.isSome_iff_exists.mp hsome

theorem lookup_none_of_not_mem_keys {β : Type} {l : List (ℕ × β)} {k : ℕ}
    (h : k ∉ l.map Prod.fst) : List.lookup k l = none := by
  rw [List.lookup_eq_none_iff]
  intro p hp
  simp only [bne_iff_ne, ne_eq]
  intro hk
  exact h (List.mem_map.mpr ⟨p, hp, hk.symm⟩)

theorem not_mem_keys_of_lookup_none {β : Type} {l : List (ℕ × β)} {k : ℕ}
    (h : List.lookup k l = none) : k ∉ l.map Prod.fst := by
  intro hmem
  rcases lookup_of_mem_keys hmem with ⟨v, hv⟩
  rw [h] at hv
  exact Option.noConfusion hv

theorem mem_unique_of_nodup_keys {β : Type} {l : List (ℕ × β)}
    (h : (l.map Prod.fst).Nodup) {k : ℕ} {v w : β}
    (hv : (k, v) ∈ l) (hw : (k, w) ∈ l) : v = w := by
  induction l with
  | nil => simp at hv
  | cons p t ih =>
    simp only [List.map_cons, List.nodup_cons] at h
    rcases List.mem_cons.mp hv with hv1 | hv2
    · rcases List.mem_cons.mp hw with hw1 | hw2
      · rw [← hv1] at hw1
        exact (Prod.mk.injEq _ _ _ _ ▸ hw1).2.symm
      · exfalso
        apply h.1
        have : p.1 = k := by rw [← hv1]
        rw [this]
        exact List.mem_map.mpr ⟨(k, w), hw2, rfl⟩
    · rcases List.mem_cons.mp hw with hw1 | hw2
      · exfalso
        apply h.1
        have : p.1 = k := by rw [← hw1]
        rw [this]
        exact List.mem_map.mpr ⟨(k, v), hv2, rfl⟩
      · exact ih h.2 hv2 hw2

theorem le_foldl_max_init (l : List ℕ) : ∀ a : ℕ, a ≤ l.foldl max a := by
  induction l with
  | nil => intro a; simp
  | cons b t ih =>
    intro a
    rw [List.foldl_cons]
    exact le_trans (Nat.le_max_left a b) (ih (max a b))

theorem le_foldl_max_of_mem {l : List ℕ} {x : ℕ} (h : x ∈ l) :
    ∀ a : ℕ, x ≤ l.foldl max a := by
  induction l with
  | nil => simp at h
  | cons b t ih =>
    intro a
    rw [List.foldl_cons]
    rcases List.mem_cons.mp h with rfl | h2
    · exact le_trans (Nat.le_max_right a x) (le_foldl_max_init t (max a x))
    · exact ih h2 (max a b)

/-! ### Document Builder: `create_word_list` -/

theorem foldl_appendAt_length (rows : List (ℕ × ℕ)) :
    ∀ init : List (List ℕ),
      (rows.foldl (fun acc p => appendAt acc p.1 p.2) init).length = init.length := by
  induction rows with
  | nil => intro init; rfl
  | cons p t ih =>
    intro init
    rw [List.foldl_cons, ih]
    simp [appendAt]

theorem foldl_appendAt_getD (rows : List (ℕ × ℕ)) :
    ∀ (init : List (List ℕ)) (k : ℕ), k < init.length →
      (∀ p ∈ rows, p.1 < init.length) →
      (rows.foldl (fun acc p => appendAt acc p.1 p.2) init).getD k []
        = init.getD k [] ++ ((rows.filter (fun p => p.1 == k)).map Prod.snd) := by
  induction rows with
  | nil =>
    intro init k hk hin
    simp
  | cons p t ih =>
    intro init k hk hin
    have hlen : (appendAt init p.1 p.2).length = init.length := by simp [appendAt]
    rw [List.foldl_cons,
      ih (appendAt init p.1 p.2) k (by rw [hlen]; exact hk)
        (fun q hq => by rw [hlen]; exact hin q (List.mem_cons_of_mem p hq))]
    cases hpk : (p.1 == k) with
    | true =>
      have hp1 : p.1 = k := by simpa using hpk
      subst hp1
      rw [getD_appendAt_self init p.1 p.2 (hin p (List.mem_cons_self p t))]
      rw [List.filter_cons_of_pos (by simp), List.map_cons,
        List.append_assoc, List.singleton_append]
    | false =>
      have hp1 : k ≠ p.1 := fun hkp => by simp [hkp] at hpk
      rw [getD_appendAt_ne init p.1 k p.2 hp1,
        List.filter_cons_of_neg (by simpa using hpk)]

/-- Claim C5: for a row-aligned pair of non-negative-integer columns with
`col1` maximum `m`, `create_word_list` returns exactly `m + 1` documents,
document `k` being the space-joined stringified `col2` values of the rows
whose `col1` value is `k`, in row order, and the empty string when the
value `k` occurs in no row. -/
theorem create_word_list_spec (rows : List (ℕ × ℕ)) (_hne : rows ≠ []) :
    (create_word_list rows).length = (rows.map Prod.fst).foldl max 0 + 1 ∧
    (∀ k, k ≤ (rows.map Prod.fst).foldl max 0 →
      (create_word_list rows).getD k "" =
        String.intercalate " "
          (((rows.filter (fun p => p.1 == k)).map Prod.snd).map toString)) ∧
    (∀ k, k ≤ (rows.map Prod.fst).foldl max 0 → (∀ p ∈ rows, p.1 ≠ k) →
      (create_word_list rows).getD k "" = "") := by
  have hsize : ∀ p ∈ rows, p.1 < (rows.map Prod.fst).foldl max 0 + 1 := by
    intro p hp
    have : p.1 ∈ rows.map Prod.fst := List.mem_map.mpr ⟨p, hp, rfl⟩
    exact Nat.lt_succ_of_le (le_foldl_max_of_mem this 0)
  have hblen :
      (rows.foldl (fun acc p => appendAt acc p.1 p.2)
        (List.replicate ((rows.map Prod.fst).foldl max 0 + 1) [])).length
        = (rows.map Prod.fst).foldl max 0 + 1 := by
    rw [foldl_appendAt_length]
    simp
  have hbucket : ∀ k, k ≤ (rows.map Prod.fst).foldl max 0 →
      (rows.foldl (fun acc p => appendAt acc p.1 p.2)
        (List.replicate ((rows.map Prod.fst).foldl max 0 + 1) [])).getD k []
        = (rows.filter (fun p => p.1 == k)).map Prod.snd := by
    intro k hk
    rw [foldl_appendAt_getD rows _ k (by simpa using Nat.lt_succ_of_le hk)
      (fun p hp => by simpa using hsize p hp)]
    have : (List.replicate ((rows.map Prod.fst).foldl max 0 + 1) ([] : List ℕ)).getD k []
        = [] := by
      rw [List.getD_eq_getElem _ _ (by simpa using Nat.lt_succ_of_le hk)]
      simp
    rw [this, List.nil_append]
  refine ⟨?_, ?_, ?_⟩
  · unfold create_word_list
    rw [List.length_map, hblen]
  · intro k hk
    unfold create_word_list
    rw [getD_map_of_lt _ _ k (by rw [hblen]; exact Nat.lt_succ_of_le hk) ""]
    rw [getD_congr _ k (by rw [hblen]; exact Nat.lt_succ_of_le hk) default []]
    rw [hbucket k hk]
  · intro k hk hno
    unfold create_word_list
    rw [getD_map_of_lt _ _ k (by rw [hblen]; exact Nat.lt_succ_of_le hk) ""]
    rw [getD_congr _ k (by rw [hblen]; exact Nat.lt_succ_of_le hk) default []]
    rw [hbucket k hk]
    have hfil : rows.filter (fun p => p.1 == k) = [] := by
      rw [List.filter_eq_nil_iff]
      intro p hp
      simpa using hno p hp
    rw [hfil]
    rfl

/-- Witness for claim C5 at a concrete input: rows
`[(1, 7), (0, 2), (1, 3)]` give documents `["2", "7 3"]`. -/
theorem create_word_list_spec_witness :
    (create_word_list [(1, 7), (0, 2), (1, 3)]).length = 2 ∧
    (create_word_list [(1, 7), (0, 2), (1, 3)]).getD 1 "" = "7 3" := by
  have h := create_word_list_spec [(1, 7), (0, 2), (1, 3)] (by decide)
  refine ⟨h.1, ?_⟩
  rw [h.2.1 1 (by decide)]
  rfl

/-! ### Pair enumeration and broadcast -/

/-- Claim C6: the pair enumeration over the fixed column set
`{ip, app, os, device, channel}` yields exactly 20 ordered pairs, pairwise
distinct, containing every ordered pair of distinct members of the set. -/
theorem get_column_pairs_spec :
    get_column_pairs.length = 20 ∧ get_column_pairs.Nodup ∧
    (∀ a ∈ [Col.ip, Col.app, Col.os, Col.device, Col.channel],
      ∀ b ∈ [Col.ip, Col.app, Col.os, Col.device, Col.channel],
      a ≠ b → (a, b) ∈ get_column_pairs) ∧
    (∀ p ∈ get_column_pairs,
      p.1 ∈ [Col.ip, Col.app, Col.os, Col.device, Col.channel] ∧
      p.2 ∈ [Col.ip, Col.app, Col.os, Col.device, Col.channel] ∧ p.1 ≠ p.2) := by
  decide

theorem getD_of_slice {α : Type} (l : List α) (w i j : ℕ) (d : α) (hj : j < w) :
    ((l.drop (i * w)).take w).getD j d = l.getD (i * w + j) d := by
  rw [List.getD_eq_getD_get?, List.getD_eq_getD_get?, List.get?_eq_getElem?,
    List.get?_eq_getElem?, List.getElem?_take_of_lt hj, List.getElem?_drop]

theorem getD_range_of_lt (w j : ℕ) (hj : j < w) (d : ℕ) :
    (List.range w).getD j d = j := by
  rw [List.getD_eq_getElem _ _ (by simpa using hj)]
  simp

/-- Claim C1: in the `get_feature` table, the `width`-length slice of row
`ri` at column offset `i * width` equals the latent-matrix row of triple
`i` indexed by that dataset row's `col1` value, provided the latent rows
have the configured width and the `col1` value is a dense in-range id. -/
theorem get_feature_broadcast (name : String) (width : ℕ) (df_data : List Row)
    (triples : List (Col × Col × List (List ℚ)))
    (hshape : ∀ t ∈ triples, ∀ v ∈ t.2.2, v.length = width)
    (i ri : ℕ) (hi : i < triples.length) (hri : ri < df_data.length)
    (hrange : (df_data.getD ri default).get (triples.getD i default).1
        < (triples.getD i default).2.2.length) :
    (((get_feature name width df_data triples).2.getD ri []).drop (i * width)).take width
      = (triples.getD i default).2.2.getD
          ((df_data.getD ri default).get (triples.getD i default).1) [] := by
  unfold get_feature
  rw [getD_map_of_lt _ _ ri hri []]
  have hchunk : ∀ t ∈ triples,
      (t.2.2.getD ((df_data.getD ri default).get t.1) (List.replicate width 0)).length
        = width := by
    intro t ht
    by_cases hcase : (df_data.getD ri default).get t.1 < t.2.2.length
    · rw [List.getD_eq_getElem _ _ hcase]
      exact hshape t ht _ (List.getElem_mem hcase)
    · rw [List.getD_eq_default _ _ (Nat.le_of_not_lt hcase)]
      simp
  rw [flatMap_drop_take _ width triples hchunk i hi]
  exact getD_congr _ _ hrange (List.replicate width 0) []

/-- Witness for claim C1 at a concrete input: one row whose `ip` value is
`0` receives latent row `0`, namely `[1, 2]`. -/
theorem get_feature_broadcast_witness :
    (((get_feature "f" 2 [⟨0, 0, 0, 0, 1⟩]
        [(Col.ip, Col.app, [[1, 2], [3, 4]])]).2.getD 0 []).drop 0).take 2
      = [1, 2] := by
  have h := get_feature_broadcast "f" 2 [⟨0, 0, 0, 0, 1⟩]
    [(Col.ip, Col.app, [[1, 2], [3, 4]])]
    (by intro t ht v hv; fin_cases ht; fin_cases hv <;> rfl)
    0 0 (by decide) (by decide) (by decide)
  exact h

/-- Claim C8: the generated column list of `get_feature` has
`(number of triples) * width` entries, and the block of triple `i` consists
of the names `{name}-{col1}-{col2}-{j}` for `j` from `0` to `width - 1`,
in that order. -/
theorem get_feature_columns (name : String) (width : ℕ) (df_data : List Row)
    (triples : List (Col × Col × List (List ℚ))) :
    (get_feature name width df_data triples).1.length = triples.length * width ∧
    (∀ i, i < triples.length →
      ((get_feature name width df_data triples).1.drop (i * width)).take width
        = (List.range width).map (fun j =>
            name ++ "-" ++ (triples.getD i default).1.name ++ "-"
              ++ (triples.getD i default).2.1.name ++ "-" ++ toString j)) ∧
    (∀ i, i < triples.length → ∀ j, j < width →
      (get_feature name width df_data triples).1.getD (i * width + j) ""
        = name ++ "-" ++ (triples.getD i default).1.name ++ "-"
            ++ (triples.getD i default).2.1.name ++ "-" ++ toString j) := by
  have hchunk : ∀ t ∈ triples,
      ((List.range width).map (fun j =>
        name ++ "-" ++ t.1.name ++ "-" ++ t.2.1.name ++ "-" ++ toString j)).length
        = width := by
    intro t _
    simp
  refine ⟨flatMap_length_const _ width triples hchunk, ?_, ?_⟩
  · intro i hi
    exact flatMap_drop_take _ width triples hchunk i hi
  · intro i hi j hj
    have h2 : ((get_feature name width df_data triples).1.drop (i * width)).take width
        = (List.range width).map (fun j =>
            name ++ "-" ++ (triples.getD i default).1.name ++ "-"
              ++ (triples.getD i default).2.1.name ++ "-" ++ toString j) :=
      flatMap_drop_take _ width triples hchunk i hi
    rw [← getD_of_slice _ width i j "" hj, h2,
      getD_map_of_lt _ _ j (by simpa using hj) "",
      getD_range_of_lt width j hj default]

/-! ### The pairwise pipeline: one fit, two tables, ordered collection -/

/-- Claim C4: `transform` returns the train-split and test-split feature
tables assembled by `get_feature` from one and the same list of fitted
per-pair latent matrices, and its output is unchanged under any
replacement of the fitting collaborator that agrees on the fitting
dataframe — no second fit happens for the held-out split. -/
theorem transform_single_fit (name : String) (width : ℕ)
    (computeLatent : List Row → Col × Col → List (List ℚ))
    (dataframe df_train df_test : List Row) :
    (transform name width computeLatent dataframe df_train df_test
      = (get_feature name width df_train
          (get_column_pairs.map (fun p => (p.1, p.2, computeLatent dataframe p))),
         get_feature name width df_test
          (get_column_pairs.map (fun p => (p.1, p.2, computeLatent dataframe p))))) ∧
    (∀ computeLatent2 : List Row → Col × Col → List (List ℚ),
      (∀ p, computeLatent2 dataframe p = computeLatent dataframe p) →
      transform name width computeLatent2 dataframe df_train df_test
        = transform name width computeLatent dataframe df_train df_test) := by
  refine ⟨rfl, ?_⟩
  intro computeLatent2 hagree
  unfold transform
  have hsame : get_column_pairs.map (fun p => (p.1, p.2, computeLatent2 dataframe p))
      = get_column_pairs.map (fun p => (p.1, p.2, computeLatent dataframe p)) :=
    List.map_congr_left (fun p _ => by rw [hagree p])
  rw [hsame]

theorem lookup_map_pair {β : Type} (g : ℕ → β) (order : List ℕ) (i : ℕ)
    (h : i ∈ order) :
    List.lookup i (order.map (fun j => (j, g j))) = some (g i) := by
  induction order with
  | nil => simp at h
  | cons a t ih =>
    rw [List.map_cons, List.lookup_cons]
    cases hi : (i == a) with
    | true =>
      have hia : i = a := by simpa using hi
      subst hia
      simp
    | false =>
      have hia : i ≠ a := by simpa using hi
      have hmem : i ∈ t := by
        rcases List.mem_cons.mp h with h1 | h2
        · exact absurd h1 hia
        · exact h2
      simpa using ih hmem

theorem filterMap_eq_map_of_some {α β : Type} (F : α → Option β) (G : α → β)
    (l : List α) (h : ∀ a ∈ l, F a = some (G a)) : l.filterMap F = l.map G := by
  induction l with
  | nil => rfl
  | cons a t ih =>
    simp only [List.filterMap_cons, h a (List.mem_cons_self a t), List.map_cons]
    rw [ih (fun b hb => h b (List.mem_cons_of_mem a hb))]

theorem poolMap_eq_map {α β : Type} [Inhabited α] (f : α → β) (jobs : List α)
    (order : List ℕ) (h : order.Perm (List.range jobs.length)) :
    poolMap f jobs order = jobs.map f := by
  unfold poolMap poolRun
  rw [filterMap_eq_map_of_some _ (fun i => f (jobs.getD i default)) _
    (fun i hi =>
      lookup_map_pair (fun j => f (jobs.getD j default)) order i (h.mem_iff.mpr hi))]
  exact map_getD_range f jobs

/-- Claim C7: collecting the per-pair jobs dispatched to the pool, in any
completion order that is a permutation of the submitted indices, yields
exactly the sequential map of the job function over the submitted pair
list — the i-th collected triple belongs to the i-th submitted pair. -/
theorem pool_map_submission_order
    (computeLatent : List Row → Col × Col → List (List ℚ)) (dataframe : List Row)
    (order : List ℕ) (h : order.Perm (List.range get_column_pairs.length)) :
    poolMap (fun p => (p.1, p.2, computeLatent dataframe p)) get_column_pairs order
      = get_column_pairs.map (fun p => (p.1, p.2, computeLatent dataframe p)) :=
  poolMap_eq_map _ get_column_pairs order h

def witnessLatent : List Row → Col × Col → List (List ℚ) :=
  fun df p => [[(df.length : ℚ), if p.1 = Col.ip then 1 else 0]]

/-- Witness for claim C7: jobs completing in fully reversed order are
still collected in submission order. -/
theorem pool_map_submission_order_witness :
    poolMap (fun p => (p.1, p.2, witnessLatent [] p)) get_column_pairs
        ((List.range 20).reverse)
      = get_column_pairs.map (fun p => (p.1, p.2, witnessLatent [] p)) :=
  pool_map_submission_order witnessLatent [] ((List.range 20).reverse)
    (by rw [show get_column_pairs.length = 20 by decide]; exact List.reverse_perm _)

/-! ### Composite-key accumulation and filtering (`UserItemLDA`) -/

theorem uilStep_map_some {st : List (ℕ × ℕ) × List (List ℕ)} {r : Row} {id : ℕ}
    (hl : List.lookup (rowMask r) st.1 = some id) : (uilStep st r).1 = st.1 := by
  simp only [uilStep, hl]

theorem uilStep_map_none {st : List (ℕ × ℕ) × List (List ℕ)} {r : Row}
    (hl : List.lookup (rowMask r) st.1 = none) :
    (uilStep st r).1 = st.1 ++ [(rowMask r, st.1.length)] := by
  simp only [uilStep, hl]

theorem foldl_uilStep_lookup_stable (l : List Row) :
    ∀ (st : List (ℕ × ℕ) × List (List ℕ)) (k id : ℕ),
      List.lookup k st.1 = some id →
      List.lookup k (l.foldl uilStep st).1 = some id := by
  induction l with
  | nil => intro st k id h; exact h
  | cons r t ih =>
    intro st k id h
    rw [List.foldl_cons]
    apply ih
    cases hl : List.lookup (rowMask r) st.1 with
    | some id2 => rw [uilStep_map_some hl]; exact h
    | none =>
      rw [uilStep_map_none hl, List.lookup_append, h]
      rfl

theorem foldl_uilStep_mem_lookup (l : List Row) :
    ∀ (st : List (ℕ × ℕ) × List (List ℕ)) (r : Row), r ∈ l →
      ∃ id, List.lookup (rowMask r) (l.foldl uilStep st).1 = some id := by
  induction l with
  | nil => intro st r h; simp at h
  | cons r0 t ih =>
    intro st r h
    rw [List.foldl_cons]
    rcases List.mem_cons.mp h with rfl | h2
    · cases hl : List.lookup (rowMask r) st.1 with
      | some id =>
        exact ⟨id, foldl_uilStep_lookup_stable t _ _ id
          (by rw [uilStep_map_some hl]; exact hl)⟩
      | none =>
        refine ⟨st.1.length, foldl_uilStep_lookup_stable t _ _ _ ?_⟩
        rw [uilStep_map_none hl, List.lookup_append, hl]
        simp
    · exact ih (uilStep st r0) r h2

theorem foldl_uilStep_keys_nodup (l : List Row) :
    ∀ st : List (ℕ × ℕ) × List (List ℕ), (st.1.map Prod.fst).Nodup →
      ((l.foldl uilStep st).1.map Prod.fst).Nodup := by
  induction l with
  | nil => intro st h; exact h
  | cons r t ih =>
    intro st h
    rw [List.foldl_cons]
    apply ih
    cases hl : List.lookup (rowMask r) st.1 with
    | some id => rw [uilStep_map_some hl]; exact h
    | none =>
      rw [uilStep_map_none hl, List.map_append]
      simp [List.nodup_append, h, not_mem_keys_of_lookup_none hl]

theorem uilFilter_foldl_fst (values : List (List ℕ)) (threshold : ℕ)
    (m : List (ℕ × ℕ)) :
    ∀ acc : List (List ℕ) × List (ℕ × ℕ),
      ((m.foldl (uilFilterStep values threshold) acc).2).map Prod.fst
        = acc.2.map Prod.fst
          ++ (m.filter
              (fun p => decide (threshold ≤ (values.getD p.2 []).length))).map Prod.fst := by
  induction m with
  | nil => intro acc; simp
  | cons p t ih =>
    intro acc
    rw [List.foldl_cons, ih (uilFilterStep values threshold acc p)]
    unfold uilFilterStep
    by_cases hp : threshold ≤ (values.getD p.2 []).length
    · rw [if_pos hp, List.filter_cons_of_pos (by simpa using hp)]
      simp
    · rw [if_neg hp, List.filter_cons_of_neg (by simpa using hp)]

theorem uilFilter_foldl_vals (values : List (List ℕ)) (threshold : ℕ)
    (m : List (ℕ × ℕ)) :
    ∀ acc : List (List ℕ) × List (ℕ × ℕ),
      (m.foldl (uilFilterStep values threshold) acc).1
        = acc.1
          ++ (m.filter
              (fun p => decide (threshold ≤ (values.getD p.2 []).length))).map
                (fun p => values.getD p.2 []) := by
  induction m with
  | nil => intro acc; simp
  | cons p t ih =>
    intro acc
    rw [List.foldl_cons, ih (uilFilterStep values threshold acc p)]
    unfold uilFilterStep
    by_cases hp : threshold ≤ (values.getD p.2 []).length
    · rw [if_pos hp, List.filter_cons_of_pos (by simpa using hp)]
      simp
    · rw [if_neg hp, List.filter_cons_of_neg (by simpa using hp)]

theorem uilFilter_foldl_snd (values : List (List ℕ)) (threshold : ℕ)
    (m : List (ℕ × ℕ)) :
    ∀ acc : List (List ℕ) × List (ℕ × ℕ), acc.1.length = acc.2.length →
      acc.2.map Prod.snd = List.range acc.2.length →
      ((m.foldl (uilFilterStep values threshold) acc).2.map Prod.snd
          = List.range ((m.foldl (uilFilterStep values threshold) acc).2.length)
        ∧ (m.foldl (uilFilterStep values threshold) acc).1.length
            = (m.foldl (uilFilterStep values threshold) acc).2.length) := by
  induction m with
  | nil =>
    intro acc h1 h2
    simp only [List.foldl_nil]
    exact ⟨h2, h1⟩
  | cons p t ih =>
    intro acc h1 h2
    rw [List.foldl_cons]
    apply ih
    · unfold uilFilterStep
      by_cases hp : threshold ≤ (values.getD p.2 []).length
      · rw [if_pos hp]
        simp [h1]
      · rw [if_neg hp]
        exact h1
    · unfold uilFilterStep
      by_cases hp : threshold ≤ (values.getD p.2 []).length
      · rw [if_pos hp]
        simp only [List.map_append, List.map_cons, List.map_nil, List.length_append,
          List.length_cons, List.length_nil]
        rw [h2, h1, ← List.range_succ]
      · rw [if_neg hp]
        exact h2

/-- Claim C2: in the composite-key variant, the surviving keys are exactly
those whose accumulated token list reached the threshold `3`, renumbered
contiguously from `0` preserving first-seen order (with the surviving
buckets kept alongside in the same order); every dataset row maps to some
accumulated key, rows of a below-threshold key get the all-zero
30-vector, and rows of a surviving key get exactly that key's
latent-matrix row. -/
theorem uil_composite_key_filtering (components : List (List ℚ))
    (data : List Row) :
    ((uilFilter (uilAccumulate data).1 (uilAccumulate data).2 3).2.map Prod.snd
      = List.range
          (uilFilter (uilAccumulate data).1 (uilAccumulate data).2 3).2.length) ∧
    ((uilFilter (uilAccumulate data).1 (uilAccumulate data).2 3).2.map Prod.fst
      = ((uilAccumulate data).1.filter
          (fun p => decide (3 ≤ ((uilAccumulate data).2.getD p.2 []).length))).map
            Prod.fst) ∧
    ((uilFilter (uilAccumulate data).1 (uilAccumulate data).2 3).1
      = ((uilAccumulate data).1.filter
          (fun p => decide (3 ≤ ((uilAccumulate data).2.getD p.2 []).length))).map
            (fun p => (uilAccumulate data).2.getD p.2 [])) ∧
    (∀ r ∈ data, ∃ id,
      List.lookup (rowMask r) (uilAccumulate data).1 = some id ∧
      (((uilAccumulate data).2.getD id []).length < 3 →
        uilFeatureRow (uilFilter (uilAccumulate data).1 (uilAccumulate data).2 3).2
            components 30 r
          = List.replicate 30 0) ∧
      (3 ≤ ((uilAccumulate data).2.getD id []).length →
        ∃ nid,
          List.lookup (rowMask r)
              (uilFilter (uilAccumulate data).1 (uilAccumulate data).2 3).2
            = some nid ∧
          uilFeatureRow (uilFilter (uilAccumulate data).1 (uilAccumulate data).2 3).2
              components 30 r
            = components.getD nid (List.replicate 30 0))) := by
  have hsnd := uilFilter_foldl_snd (uilAccumulate data).2 3 (uilAccumulate data).1
    ([], []) rfl rfl
  have hfst := uilFilter_foldl_fst (uilAccumulate data).2 3 (uilAccumulate data).1
    ([], [])
  have hvals := uilFilter_foldl_vals (uilAccumulate data).2 3 (uilAccumulate data).1
    ([], [])
  have hnodup : ((uilAccumulate data).1.map Prod.fst).Nodup :=
    foldl_uilStep_keys_nodup data ([], []) (by simp)
  refine ⟨hsnd.1, by simpa using hfst, by simpa using hvals, ?_⟩
  intro r hr
  rcases foldl_uilStep_mem_lookup data ([], []) r hr with ⟨id, hid⟩
  have hmem : (rowMask r, id) ∈ (uilAccumulate data).1 := lookup_mem hid
  refine ⟨id, hid, ?_, ?_⟩
  · intro hlt
    have hnone :
        List.lookup (rowMask r)
          (uilFilter (uilAccumulate data).1 (uilAccumulate data).2 3).2 = none := by
      apply lookup_none_of_not_mem_keys
      intro hin
      rw [show (uilFilter (uilAccumulate data).1 (uilAccumulate data).2 3).2.map Prod.fst
          = ((uilAccumulate data).1.filter
              (fun p => decide (3 ≤ ((uilAccumulate data).2.getD p.2 []).length))).map
                Prod.fst from by simpa using hfst] at hin
      rcases List.mem_map.mp hin with ⟨p, hp, hpk⟩
      rcases List.mem_filter.mp hp with ⟨hpm, hpred⟩
      have hpid : p.2 = id := by
        have hp2 : (rowMask r, p.2) ∈ (uilAccumulate data).1 := by
          have : p = (rowMask r, p.2) := by
            rcases p with ⟨a, b⟩
            simp only at hpk
            rw [hpk]
          rw [← this]
          exact hpm
        exact mem_unique_of_nodup_keys hnodup hp2 hmem
      rw [hpid] at hpred
      simp only [decide_eq_true_eq] at hpred
      omega
    unfold uilFeatureRow
    rw [hnone]
  · intro hge
    have hin : rowMask r ∈
        (uilFilter (uilAccumulate data).1 (uilAccumulate data).2 3).2.map Prod.fst := by
      rw [show (uilFilter (uilAccumulate data).1 (uilAccumulate data).2 3).2.map Prod.fst
          = ((uilAccumulate data).1.filter
              (fun p => decide (3 ≤ ((uilAccumulate data).2.getD p.2 []).length))).map
                Prod.fst from by simpa using hfst]
      exact List.mem_map.mpr ⟨(rowMask r, id),
        List.mem_filter.mpr ⟨hmem, by simpa using hge⟩, rfl⟩
    rcases lookup_of_mem_keys hin with ⟨nid, hnid⟩
    refine ⟨nid, hnid, ?_⟩
    unfold uilFeatureRow
    rw [hnid]

/-! ### Key collision, train/test interference, min_df selection -/

/-- Claim C3 (documenting the code bug): the composite-key packing has no
bounds check.  Two distinct key tuples, one with `os = 1024` exceeding its
allotted 10-bit width, pack to the same key and are silently merged into a
single accumulated key — no configuration error is raised anywhere. -/
theorem uil_mask_collision :
    rowMask ⟨0, 0, 1024, 0, 0⟩ = rowMask ⟨0, 0, 0, 1, 0⟩ ∧
    2 ^ 10 ≤ (1024 : ℕ) ∧
    (⟨0, 0, 1024, 0, 0⟩ : Row) ≠ ⟨0, 0, 0, 1, 0⟩ ∧
    (uilAccumulate [⟨0, 0, 1024, 0, 0⟩, ⟨0, 0, 0, 1, 0⟩]).1.length = 1 := by
  decide

/-- Claim C9: both non-pairwise variants fit their pipeline on the
concatenation of the train and test dataframes — the train-split feature
table is a prefix of the pipeline output on the concatenation — and for
each variant there are inputs differing only in the test split whose
train-split feature tables differ. -/
theorem features_depend_on_test_split :
    (∀ (pipeline : List Row → List (List ℚ)) (df_train df_test : List Row),
      (SinglePCACount.create_features_from_dataframe pipeline df_train df_test).1
        = (pipeline (df_train ++ df_test)).take df_train.length) ∧
    (∃ (pipeline : List Row → List (List ℚ)) (df_train df_test1 df_test2 : List Row),
      df_test1 ≠ df_test2 ∧
      (SinglePCACount.create_features_from_dataframe pipeline df_train df_test1).1
        ≠ (SinglePCACount.create_features_from_dataframe pipeline df_train df_test2).1) ∧
    (∃ (pipeline : ℕ → List String → List (List ℚ))
        (df_train df_test1 df_test2 : List Row),
      df_test1 ≠ df_test2 ∧
      (UserItemLDA.create_features_from_dataframe pipeline df_train df_test1).1
        ≠ (UserItemLDA.create_features_from_dataframe pipeline df_train df_test2).1) := by
  refine ⟨fun pipeline df_train df_test => rfl, ?_, ?_⟩
  · refine ⟨fun rows => rows.map (fun _ => [(rows.length : ℚ)]),
      [⟨0, 0, 0, 0, 0⟩], [], [⟨0, 0, 0, 0, 0⟩], by decide, by decide⟩
  · refine ⟨fun _ docs => List.replicate docs.length (List.replicate 30 (docs.length : ℚ)),
      [⟨0, 0, 0, 0, 0⟩, ⟨0, 0, 0, 0, 0⟩, ⟨0, 0, 0, 0, 0⟩], [],
      [⟨0, 0, 0, 0, 1⟩, ⟨0, 0, 0, 0, 1⟩, ⟨0, 0, 0, 0, 1⟩], by decide, by decide⟩

/-- Claim C10: the composite-key variant's vectorizer minimum document
frequency is `1` exactly when the combined train+test row count is
strictly below 1,000,000 and `2` otherwise, and the pipeline is invoked
with exactly that cutoff. -/
theorem uil_min_df_selection (df_train df_test : List Row) :
    (uilMinDf (df_train ++ df_test).length
      = if df_train.length + df_test.length < 1000000 then 1 else 2) ∧
    (df_train.length + df_test.length < 1000000 →
      uilMinDf (df_train ++ df_test).length = 1) ∧
    (1000000 ≤ df_train.length + df_test.length →
      uilMinDf (df_train ++ df_test).length = 2) ∧
    (∀ pipeline : ℕ → List String → List (List ℚ),
      UserItemLDA.create_features_from_dataframe pipeline df_train df_test
        = UserItemLDA.create_features_from_dataframe
            (fun _ docs =>
              pipeline (if df_train.length + df_test.length < 1000000 then 1 else 2)
                docs)
            df_train df_test) := by
  have hmdf : uilMinDf (df_train ++ df_test).length
      = if df_train.length + df_test.length < 1000000 then 1 else 2 := by
    unfold uilMinDf
    rw [List.length_append]
  refine ⟨hmdf, fun h => by rw [hmdf, if_pos h],
    fun h => by rw [hmdf, if_neg (by omega)], ?_⟩
  intro pipeline
  simp only [UserItemLDA.create_features_from_dataframe, hmdf]

end CategoryVector
